import Mathlib

/-!
Verification development for the flashcard storage / spreadsheet
import-export core of the repository.

The Python source is shallowly embedded:

* text utilities (`clean_text`, `normalize_text` from
  `src/excel_utils/importer.py`) are modelled as executable functions on
  `List Char` (the model is ASCII-faithful: Python's unicode-aware
  `str.lower`, `\w` and `\s` are restricted to their ASCII behaviour);
* the importer's merge pipeline (`import_from_excel`, lines 320-419) is
  modelled from the point where the workbook rows have been read and
  cleaned: parsing (`parse_excel_data`), duplicate reconciliation,
  identifier recomputation, theme recollection and the final sort;
* the storage layer (`LocalStorage`, `YandexDiskStorage`,
  `HybridStorage`) is modelled with an explicit JSON value type, an
  explicit file-state and explicit outcome types for the I/O and HTTP
  environments; Python exceptions are modelled with `Except`, and a
  function that catches every exception is total.
-/

/-! ## Character classes (ASCII model of Python's `\s`, `\w`, `str.lower`) -/

/-- ASCII model of Python's whitespace class `\s` (and of `str.strip` /
`str.split()` whitespace). -/
def isSpace (c : Char) : Bool :=
  c == ' ' || c == '\t' || c == '\n' || c == '\r' || c == '\x0b' || c == '\x0c'

/-- ASCII model of Python's word class `\w`: alphanumeric or underscore. -/
def isWordChar (c : Char) : Bool :=
  c.isAlphanum || c == '_'

/-- ASCII model of Python's `str.lower` on a single character. -/
def lowerChar (c : Char) : Char :=
  if 65 ≤ c.toNat ∧ c.toNat ≤ 90 then Char.ofNat (c.toNat + 32) else c

theorem toNat_lowerChar_of_upper {c : Char} (h₁ : 65 ≤ c.toNat) (h₂ : c.toNat ≤ 90) :
    (lowerChar c).toNat = c.toNat + 32 := by
  have hv : Nat.isValidChar (c.toNat + 32) := by
    left
    omega
  simp only [lowerChar, if_pos (And.intro h₁ h₂), Char.ofNat, dif_pos hv]
  rfl

theorem lowerChar_of_not_upper {c : Char} (h : ¬(65 ≤ c.toNat ∧ c.toNat ≤ 90)) :
    lowerChar c = c := by
  simp only [lowerChar, if_neg h]

theorem lowerChar_idem (c : Char) : lowerChar (lowerChar c) = lowerChar c := by
  by_cases h : 65 ≤ c.toNat ∧ c.toNat ≤ 90
  · have ht : (lowerChar c).toNat = c.toNat + 32 := toNat_lowerChar_of_upper h.1 h.2
    have : ¬(65 ≤ (lowerChar c).toNat ∧ (lowerChar c).toNat ≤ 90) := by
      rw [ht]
      omega
    exact lowerChar_of_not_upper this
  · rw [lowerChar_of_not_upper h, lowerChar_of_not_upper h]

/-! ## List-of-character text utilities -/

/-- Left-to-right non-overlapping substring replacement, the model of
Python's `str.replace`.  The fuel argument is an upper bound on the number
of remaining characters; `replaceAll` instantiates it with the length of
the string, which is always sufficient. -/
def replaceAllAux (pat rep : List Char) : Nat → List Char → List Char
  | _, [] => []
  | 0, s => s
  | fuel + 1, c :: cs =>
    if pat ≠ [] ∧ pat.isPrefixOf (c :: cs) then
      rep ++ replaceAllAux pat rep fuel (List.drop (pat.length - 1) cs)
    else
      c :: replaceAllAux pat rep fuel cs

/-- Model of Python's `str.replace(pat, rep)`. -/
def replaceAll (pat rep s : List Char) : List Char :=
  replaceAllAux pat rep s.length s

/-- Model of Python's `str.split(sep)` for a one-character separator. -/
def splitOnChar (sep : Char) : List Char → List (List Char)
  | [] => [[]]
  | c :: cs =>
    if c = sep then [] :: splitOnChar sep cs
    else
      match splitOnChar sep cs with
      | [] => [[c]]
      | w :: ws => (c :: w) :: ws

/-- Model of Python's `str.strip()`. -/
def trimChars (l : List Char) : List Char :=
  ((l.dropWhile isSpace).reverse.dropWhile isSpace).reverse

/-- Model of `re.sub(r'\s+', ' ', s)`: every maximal run of whitespace
becomes one space.  The flag records whether the previous character was
whitespace. -/
def collapseWsAux : Bool → List Char → List Char
  | _, [] => []
  | inRun, c :: cs =>
    if isSpace c then
      if inRun then collapseWsAux true cs else ' ' :: collapseWsAux true cs
    else
      c :: collapseWsAux false cs

def collapseWs (l : List Char) : List Char :=
  collapseWsAux false l

namespace ExcelImporter

/-- Model of `ExcelImporter.clean_text` (src/excel_utils/importer.py,
lines 36-55): normalize Windows line-break artifacts, strip every line,
drop blank lines, rejoin with newlines. -/
def cleanTextL (l : List Char) : List Char :=
  if l = [] then []
  else
    let t₁ := replaceAll "_x000D_".data "\n".data l
    let t₂ := replaceAll "\r\n".data "\n".data t₁
    let t₃ := replaceAll "\r".data "\n".data t₂
    let lines := (splitOnChar '\n' t₃).map trimChars
    List.intercalate ['\n'] (lines.filter (fun w => w ≠ []))

/-- Model of `ExcelImporter.normalize_text` (src/excel_utils/importer.py,
lines 57-66): clean, lowercase, drop every character that is neither a
word character nor whitespace, collapse whitespace runs, strip. -/
def normalizeTextL (l : List Char) : List Char :=
  let cleaned := cleanTextL l
  if cleaned = [] then []
  else
    trimChars (collapseWs ((cleaned.map lowerChar).filter
      (fun c => isWordChar c || isSpace c)))

/-- String-level `clean_text`. -/
def clean_text (s : String) : String :=
  String.mk (cleanTextL s.data)

/-- String-level `normalize_text`. -/
def normalize_text (s : String) : String :=
  String.mk (normalizeTextL s.data)

end ExcelImporter

/-! ## Data model -/

/-- One flashcard, as built by `parse_excel_data` and stored in the JSON
document. -/
structure Card where
  id : Nat
  question : String
  answer : String
  explanation : String
  theme : String
  difficulty : String
  hidden : Bool
  version : String
deriving Repr, DecidableEq

/-- The persisted document: `{cards: [...], themes: [...], next_id: n}`. -/
structure Document where
  cards : List Card
  themes : List String
  next_id : Nat
deriving Repr, DecidableEq

/-- The default empty document produced by every loader on failure. -/
def defaultDocument : Document :=
  { cards := [], themes := [], next_id := 1 }

/-! ## Importer: row parsing (src/excel_utils/importer.py, lines 175-280) -/

/-- Numeric value of a string of decimal digits, the model of Python's
`int` on a string that passed `str.isdigit`. -/
def natOfDigits (l : List Char) : Nat :=
  l.foldl (fun a c => a * 10 + (c.toNat - 48)) 0

namespace ExcelImporter

/-- Lowercase an entire string (ASCII model of `str.lower`). -/
def lowerStr (s : String) : String :=
  String.mk (s.data.map lowerChar)

/-- Model of the importer's `difficulty_map` lookup: the key has already
been lowercased, so the capitalized dictionary keys are unreachable and
only the lowercase ones are modelled; unknown values default to
`"medium"`. -/
def difficultyOf (s : String) : String :=
  let k := lowerStr s
  if k = "легкий" ∨ k = "easy" then "easy"
  else if k = "средний" ∨ k = "medium" then "medium"
  else if k = "сложный" ∨ k = "hard" then "hard"
  else "medium"

/-- Model of the importer's `hidden_map` lookup (key already lowercased,
default `False`). -/
def hiddenOf (s : String) : Bool :=
  let k := lowerStr s
  if k = "да" ∨ k = "yes" ∨ k = "true" ∨ k = "1" ∨ k = "+" then true
  else if k = "нет" ∨ k = "no" ∨ k = "false" ∨ k = "0" ∨ k = "-" then false
  else false

/-- Model of the per-row body of `parse_excel_data`: pad short rows to 8
columns, extract the fixed columns, skip the row when both question and
answer are empty, parse the optional numeric id (0 when absent or not
all digits), map difficulty and hidden labels.  The cells have already
been cleaned by `read_excel_file`. -/
def parseRow (row : List String) : Option Card :=
  let r := row ++ List.replicate (8 - row.length) ""
  let id_str := r.getD 0 ""
  let question := r.getD 1 ""
  let answer := r.getD 2 ""
  let explanation := r.getD 3 ""
  let theme := r.getD 4 ""
  let difficulty_str := r.getD 5 ""
  let hidden_str := r.getD 6 ""
  let version := r.getD 7 ""
  if question = "" ∧ answer = "" then none
  else
    some
      { id := if id_str ≠ "" ∧ id_str.data.all Char.isDigit then natOfDigits id_str.data else 0
        question := question
        answer := answer
        explanation := explanation
        theme := theme
        difficulty := difficultyOf difficulty_str
        hidden := hiddenOf hidden_str
        version := version }

/-- Model of `parse_excel_data`: the first row is the header row; fewer
than two rows parse to no cards. -/
def parse_excel_data (rows : List (List String)) : List Card :=
  if rows.length < 2 then []
  else (rows.drop 1).filterMap parseRow

end ExcelImporter

/-! ## Importer: merge pipeline (src/excel_utils/importer.py, lines 281-419) -/

/-- Deduplication key of a card: the normalized question text. -/
def cardKey (c : Card) : String :=
  ExcelImporter.normalize_text c.question

/-- State of the append-mode reconciliation loop.  The Python code keeps
a dict `existing_questions` mapping normalized question to id/original
question; only the key set drives control flow (the values feed log
output), so the model keeps the keys.  The list may carry duplicate keys
where the Python dict would overwrite; only membership is ever used. -/
structure AppendState where
  existingKeys : List String
  allCards : List Card
  imported : Nat
  skipped : Nat
deriving Repr, DecidableEq

/-- One iteration of the append-mode duplicate check: a card whose
normalized question is already known is skipped, otherwise it is
appended and its key is recorded. -/
def appendStep (st : AppendState) (c : Card) : AppendState :=
  if cardKey c ∈ st.existingKeys then
    { st with skipped := st.skipped + 1 }
  else
    { st with
      imported := st.imported + 1
      existingKeys := st.existingKeys ++ [cardKey c]
      allCards := st.allCards ++ [c] }

/-- Result of the mode branch of `import_from_excel`: the merged card
list, the theme baseline (emptied in replace mode), and the counters. -/
structure MergeOutcome where
  allCards : List Card
  themesBase : List String
  imported : Nat
  skipped : Nat
  errors : Nat
deriving Repr, DecidableEq

/-- Theme tokens of one card: the comma-separated pieces, stripped, with
empty pieces dropped. -/
def themeTokens (theme : String) : List String :=
  ((splitOnChar ',' theme.data).map (fun l => String.mk (trimChars l))).filter
    (fun s => s ≠ "")

/-- Insertion into a Python set modelled as a duplicate-free list. -/
def setInsert (s : List String) (x : String) : List String :=
  if x ∈ s then s else s ++ [x]

/-- Code-point lexicographic order on strings, the model of Python's
`sorted` comparison (Lean's built-in `String` order does not reduce in
the kernel). -/
def lexLe : List Char → List Char → Bool
  | [], _ => true
  | _ :: _, [] => false
  | a :: as, b :: bs =>
    if a < b then true
    else if b < a then false
    else lexLe as bs

def strLe (a b : String) : Prop :=
  lexLe a.data b.data = true

instance : DecidableRel strLe := fun a b => by
  unfold strLe
  infer_instance

/-- Model of the theme recollection of `import_from_excel`: start from
the current themes (a set), add every comma-separated theme token of
every surviving card, and return `sorted(list(...))`. -/
def collectThemes (base : List String) (cards : List Card) : List String :=
  let all :=
    cards.foldl
      (fun acc c => if c.theme ≠ "" then (themeTokens c.theme).foldl setInsert acc else acc)
      (base.foldl setInsert [])
  List.insertionSort strLe all

/-- Assign consecutive identifiers starting at `n`, the model of the
`enumerate(all_cards, start=1)` renumbering loop. -/
def renumberFrom (n : Nat) : List Card → List Card
  | [] => []
  | c :: cs => { c with id := n } :: renumberFrom (n + 1) cs

/-- Maximum identifier over a card list (0 when empty), the model of the
`max_id` loop. -/
def maxId (cards : List Card) : Nat :=
  cards.foldl (fun m c => if c.id > m then c.id else m) 0

/-- Smallest value `≥ n` not in `assigned`, the model of the
`while new_id in assigned_ids: new_id += 1` loop.  The fuel
`assigned.length + 1` always suffices because each skipped value is a
distinct member of `assigned` that is `≥ n`. -/
def nextFreeAux (assigned : List Nat) : Nat → Nat → Nat
  | 0, n => n
  | fuel + 1, n => if n ∈ assigned then nextFreeAux assigned fuel (n + 1) else n

def nextFree (assigned : List Nat) (n : Nat) : Nat :=
  nextFreeAux assigned (assigned.length + 1) n

/-- State of the append-mode identifier assignment loop over the newly
appended cards. -/
structure AssignState where
  assigned : List Nat
  newId : Nat
  done : List Card
deriving Repr, DecidableEq

/-- One iteration of the identifier assignment loop: a new card keeps a
nonzero, non-colliding carried identifier; otherwise it receives the
next free identifier. -/
def assignStep (st : AssignState) (c : Card) : AssignState :=
  if c.id = 0 ∨ c.id ∈ st.assigned then
    let nid := nextFree st.assigned st.newId
    { assigned := st.assigned ++ [nid], newId := nid + 1, done := st.done ++ [{ c with id := nid }] }
  else
    { st with assigned := st.assigned ++ [c.id], done := st.done ++ [c] }

/-- Final sort of `import_from_excel`: `all_cards.sort(key=lambda x: x['id'])`.
Python's sort is stable, and a stable sort by a key is uniquely
determined, so Mathlib's (stable) insertion sort models it exactly. -/
def sortById (cards : List Card) : List Card :=
  List.insertionSort (fun a b => a.id ≤ b.id) cards

/-- Statistics dictionary returned by `import_from_excel`. -/
structure ImportStats where
  imported : Nat
  skipped : Nat
  errors : Nat
  total : Nat
  themesCount : Nat
  mode : String
  next_id : Nat
  previous_total : Nat
deriving Repr, DecidableEq

namespace ExcelImporter

/-- Model of `import_from_excel` (src/excel_utils/importer.py, lines
281-419) from the point where the current document has been loaded and
the workbook has been read, cleaned and parsed into `importedCards`.
`none` models the early `(False, {'error': ...})` return for an empty
parse result; the validation, file reading and the final `save_data` are
I/O outside the model.  The per-card `try/except` cannot fire in the
model (every field access is total), so `errors` is 0, as it is in the
source for well-formed cards. -/
def import_from_excel_core (currentData : Document) (importedCards : List Card)
    (mode : String) : Option (Document × ImportStats) :=
  if importedCards = [] then none
  else
    let currentCards := currentData.cards
    let merge :=
      if mode = "replace" then
        { allCards := importedCards
          themesBase := []
          imported := importedCards.length
          skipped := 0
          errors := 0 : MergeOutcome }
      else
        let st :=
          importedCards.foldl appendStep
            { existingKeys := currentCards.map cardKey
              allCards := currentCards
              imported := 0
              skipped := 0 }
        { allCards := st.allCards
          themesBase := currentData.themes
          imported := st.imported
          skipped := st.skipped
          errors := 0 }
    let allThemes := collectThemes merge.themesBase merge.allCards
    let recomputed :=
      if mode = "replace" ∨ currentCards = [] then
        (renumberFrom 1 merge.allCards, merge.allCards.length + 1)
      else
        let m := maxId merge.allCards
        let assigned := (merge.allCards.take currentCards.length).map Card.id
        let ast :=
          (merge.allCards.drop currentCards.length).foldl assignStep
            { assigned := assigned, newId := m + 1, done := [] }
        (merge.allCards.take currentCards.length ++ ast.done, ast.newId)
    let sortedCards := sortById recomputed.1
    some
      ({ cards := sortedCards, themes := allThemes, next_id := recomputed.2 },
        { imported := merge.imported
          skipped := merge.skipped
          errors := merge.errors
          total := sortedCards.length
          themesCount := allThemes.length
          mode := mode
          next_id := recomputed.2
          previous_total := currentCards.length })

end ExcelImporter

/-! ## JSON values and the document encoding -/

/-- Model of a parsed JSON value (a Python object produced by
`json.load`). -/
inductive JValue where
  | jnull
  | jbool (b : Bool)
  | jnum (n : Nat)
  | jstr (s : String)
  | jarr (elems : List JValue)
  | jobj (fields : List (String × JValue))

/-- First binding of a key in an association list; Python dicts have
unique keys, so the first binding is the binding. -/
def lookupField (fields : List (String × JValue)) (k : String) : Option JValue :=
  match fields with
  | [] => none
  | (k', v) :: rest => if k' = k then some v else lookupField rest k

/-- Model of Python's `d.get(k, default)` restricted to dicts (`none`
when `v` is not a dict, where Python would raise `AttributeError`). -/
def jget (v : JValue) (k : String) : Option JValue :=
  match v with
  | .jobj fields => lookupField fields k
  | _ => none

/-- Python truthiness of a JSON value. -/
def jTruthy : JValue → Bool
  | .jnull => false
  | .jbool b => b
  | .jnum n => n ≠ 0
  | .jstr s => s ≠ ""
  | .jarr l => !l.isEmpty
  | .jobj f => !f.isEmpty

/-- Values accepted by Python's `len` (sequences and mappings). -/
def pyHasLen : JValue → Bool
  | .jarr _ => true
  | .jstr _ => true
  | .jobj _ => true
  | _ => false

/-- JSON encoding of one card, with the dict key order used by
`parse_excel_data` when it builds the card dict. -/
def encodeCard (c : Card) : JValue :=
  .jobj
    [("id", .jnum c.id), ("question", .jstr c.question), ("answer", .jstr c.answer),
      ("explanation", .jstr c.explanation), ("theme", .jstr c.theme),
      ("difficulty", .jstr c.difficulty), ("hidden", .jbool c.hidden),
      ("version", .jstr c.version)]

/-- JSON encoding of a document, with the top-level key order used by
`save_data` / `import_from_excel`. -/
def encodeDoc (d : Document) : JValue :=
  .jobj
    [("cards", .jarr (d.cards.map encodeCard)),
      ("themes", .jarr (d.themes.map JValue.jstr)),
      ("next_id", .jnum d.next_id)]

/-- The dict literal `{"cards": [], "themes": [], "next_id": 1}` that
every loader returns on failure. -/
def jDefaultDoc : JValue :=
  .jobj [("cards", .jarr []), ("themes", .jarr []), ("next_id", .jnum 1)]

def asNat : Option JValue → Option Nat
  | some (.jnum n) => some n
  | _ => none

def asStr : Option JValue → Option String
  | some (.jstr s) => some s
  | _ => none

def asBool : Option JValue → Option Bool
  | some (.jbool b) => some b
  | _ => none

/-- Decode every element of a JSON array, failing if any element fails. -/
def decodeList {α : Type} (f : JValue → Option α) : List JValue → Option (List α)
  | [] => some []
  | v :: vs =>
    match f v, decodeList f vs with
    | some a, some as => some (a :: as)
    | _, _ => none

/-- Typed view of a card dict, following the field accesses the Python
consumers perform (`card['id']`, `card['question']`, ...). -/
def decodeCard (v : JValue) : Option Card :=
  match asNat (jget v "id"), asStr (jget v "question"), asStr (jget v "answer"),
      asStr (jget v "explanation"), asStr (jget v "theme"),
      asStr (jget v "difficulty"), asBool (jget v "hidden"),
      asStr (jget v "version") with
  | some i, some q, some a, some e, some t, some df, some h, some ver =>
    some { id := i, question := q, answer := a, explanation := e, theme := t,
           difficulty := df, hidden := h, version := ver }
  | _, _, _, _, _, _, _, _ => none

/-- Typed view of a document dict, following the accesses
`data.get('cards', [])`, `data.get('themes', [])`,
`data.get('next_id', 1)` the Python consumers perform. -/
def decodeDoc (v : JValue) : Option Document :=
  match jget v "cards", jget v "themes", jget v "next_id" with
  | some (.jarr cs), some (.jarr ts), some (.jnum n) =>
    match decodeList decodeCard cs, decodeList (fun w => asStr (some w)) ts with
    | some cards, some themes => some { cards := cards, themes := themes, next_id := n }
    | _, _ => none
  | _, _, _ => none

/-! ## Local Store (src/storage/local_storage.py) -/

/-- Observable state of the local JSON file. -/
inductive LocalFileState where
  | absent
  | unreadable
  | notJson
  | json (v : JValue)

/-- Environment of one `LocalStorage.save` call: either every I/O step
succeeds, or some step (mkdir, open, write) raises, leaving the file in
the state `left`. -/
inductive LocalSaveEnv where
  | ok
  | ioFail (left : LocalFileState)

namespace LocalStorage

/-- Model of `LocalStorage.load` (src/storage/local_storage.py, lines
11-22).  A missing file yields the default document directly; an
unreadable file or invalid JSON raises, is caught, and yields the
default document.  When the JSON parses, the success log evaluates
`len(data.get('cards', []))` before returning: on a non-dict value
`.get` raises `AttributeError`, and on a `cards` entry that supports no
`len` the log raises `TypeError`; both are caught and yield the default
document. -/
def load (fs : LocalFileState) : JValue :=
  match fs with
  | .json data =>
    match data with
    | .jobj _ => if pyHasLen ((jget data "cards").getD (.jarr [])) then data else jDefaultDoc
    | _ => jDefaultDoc
  | _ => jDefaultDoc

/-- Model of `LocalStorage.save` (src/storage/local_storage.py, lines
24-36): create the directory, write the whole serialized value, log,
return `True`; any exception is caught and `False` is returned.  The
success log evaluates `len(data.get('cards', []))` after `json.dump` has
already written the file, so a value that makes the log raise leaves the
file written yet returns `False`. -/
def save (v : JValue) (env : LocalSaveEnv) (_fs : LocalFileState) :
    Bool × LocalFileState :=
  match env with
  | .ioFail left => (false, left)
  | .ok =>
    match v with
    | .jobj _ =>
      (if pyHasLen ((jget v "cards").getD (.jarr [])) then true else false, .json v)
    | _ => (false, .json v)

end LocalStorage

/-! ## Remote Store (src/storage/yandex_disk.py) -/

/-- Outcome of the HTTP environment of one `YandexDiskStorage.load`
call, one constructor per exit path of the source: an exception anywhere
inside (timeout, connection error — caught by the outer `except`); a 404
or another non-200 status on the download-link request; a 200 answer
without an `href`; a non-200 status on the second-phase download; a body
that is not valid JSON; or a successfully downloaded and parsed body. -/
inductive YdLoadOutcome where
  | raised
  | linkStatus404
  | linkStatusOther (code : Nat)
  | linkNoHref
  | downloadStatusBad (code : Nat)
  | downloadBadJson
  | downloadOk (v : JValue)

namespace YandexDiskStorage

/-- Model of `YandexDiskStorage.load` (src/storage/yandex_disk.py, lines
68-113): every failure path returns the default document — no exception
ever escapes — and only a successful two-phase download returns the
parsed body. -/
def load : YdLoadOutcome → JValue
  | .downloadOk v => v
  | _ => jDefaultDoc

end YandexDiskStorage

/-! ## Hybrid Coordinator (src/storage/hybrid_storage.py) -/

/-- Configuration state of `HybridStorage` after `__init__`: the
resolved mode string and whether a Yandex storage was constructed. -/
structure HybridStorage where
  mode : String
  hasYandex : Bool
deriving Repr, DecidableEq

/-- Python truthiness of an optional string. -/
def truthyOpt : Option String → Bool
  | none => false
  | some s => s ≠ ""

namespace HybridStorage

/-- Model of `HybridStorage.__init__` (src/storage/hybrid_storage.py,
lines 16-47): `mode or os.environ.get('STORAGE_MODE', 'hybrid')`, and a
Yandex storage is constructed iff a truthy token was passed and the
resolved mode is `yandex` or `hybrid`. -/
def make (mode envMode token : Option String) : HybridStorage :=
  let m :=
    match mode with
    | some s => if s ≠ "" then s else envMode.getD "hybrid"
    | none => envMode.getD "hybrid"
  { mode := m, hasYandex := truthyOpt token && (m == "yandex" || m == "hybrid") }

/-- Model of `HybridStorage.load` (src/storage/hybrid_storage.py, lines
49-90).  `remote` is the behaviour of `self.yandex_storage.load()`
(`.error` models the call raising — the `try/except` of hybrid mode
exists for that case); the result pairs the returned value with the
local file state, which the remote branches may refresh.  In `yandex`
mode there is no `try/except`, so a raising remote load propagates. -/
def load (hs : HybridStorage) (remote : Except Unit JValue) (senv : LocalSaveEnv)
    (fs : LocalFileState) : Except Unit (JValue × LocalFileState) :=
  if hs.mode = "local" then .ok (LocalStorage.load fs, fs)
  else if hs.mode = "yandex" then
    if !hs.hasYandex then .ok (LocalStorage.load fs, fs)
    else
      match remote with
      | .error e => .error e
      | .ok data =>
        if jTruthy data then .ok (data, (LocalStorage.save data senv fs).2)
        else .ok (data, fs)
  else if hs.mode = "hybrid" then
    if !hs.hasYandex then .ok (LocalStorage.load fs, fs)
    else
      match remote with
      | .error _ => .ok (LocalStorage.load fs, fs)
      | .ok data =>
        if jTruthy data then .ok (data, (LocalStorage.save data senv fs).2)
        else .ok (data, fs)
  else .ok (LocalStorage.load fs, fs)

/-- The `results` dict of `HybridStorage.save`: `results['yandex']` is
`None` when no remote write is attempted. -/
structure SaveResults where
  localResult : Bool
  yandexResult : Option Bool
deriving Repr, DecidableEq

/-- Model of `HybridStorage.save` (src/storage/hybrid_storage.py, lines
92-112): always perform the local write first; attempt the remote write
only when a Yandex storage exists and the mode includes remote, mapping
a raising remote save to `False`; report both outcomes separately. -/
def save (hs : HybridStorage) (v : JValue) (senv : LocalSaveEnv)
    (remote : Except Unit Bool) (fs : LocalFileState) :
    SaveResults × LocalFileState :=
  let localOutcome := LocalStorage.save v senv fs
  if hs.hasYandex && (hs.mode == "yandex" || hs.mode == "hybrid") then
    match remote with
    | .ok b => ({ localResult := localOutcome.1, yandexResult := some b }, localOutcome.2)
    | .error _ => ({ localResult := localOutcome.1, yandexResult := some false }, localOutcome.2)
  else ({ localResult := localOutcome.1, yandexResult := none }, localOutcome.2)

end HybridStorage

/-! ## Exporter (src/excel_utils/exporter.py) -/

/-- One worksheet cell value. -/
inductive Cell where
  | num (n : Nat)
  | str (s : String)
deriving Repr, DecidableEq

namespace ExcelExporter

/-- Model of the exporter's local `clean_cell_text`: normalize Windows
line-break artifacts and strip (no blank-line filtering here, unlike the
importer's `clean_text`). -/
def clean_cell_text (s : String) : String :=
  if s = "" then ""
  else
    String.mk
      (trimChars
        (replaceAll "\r".data "\n".data
          (replaceAll "\r\n".data "\n".data (replaceAll "_x000D_".data "\n".data s.data))))

/-- The exporter's `difficulty_map`: localized difficulty label, default
`Средний`. -/
def difficultyLabel (d : String) : String :=
  if d = "easy" then "Легкий"
  else if d = "medium" then "Средний"
  else if d = "hard" then "Сложный"
  else "Средний"

/-- The fixed header row. -/
def exportHeaders : List String :=
  ["№", "Вопрос", "Ответ", "Объяснение", "Тема", "Сложность", "Скрытый", "Версия"]

/-- The data row written for one card. -/
def cardRow (c : Card) : List Cell :=
  [.num c.id, .str (clean_cell_text c.question), .str (clean_cell_text c.answer),
    .str (clean_cell_text c.explanation), .str (clean_cell_text c.theme),
    .str (difficultyLabel c.difficulty), .str (if c.hidden then "Да" else "Нет"),
    .str (clean_cell_text c.version)]

/-- Model of `ExcelExporter.export_to_excel` (src/excel_utils/exporter.py,
lines 61-208) at the level of cell values: an empty card sequence raises
`ValueError("Нет данных для экспорта")`, which the outer handler
re-raises to the caller; otherwise the workbook holds the header row and
one row per card.  Styling, column widths and the generated filename are
presentation only and are outside the model. -/
def export_to_excel (d : Document) : Except String (List (List Cell)) :=
  if d.cards = [] then .error "Нет данных для экспорта"
  else .ok ((exportHeaders.map Cell.str) :: d.cards.map cardRow)

end ExcelExporter

/-! ## Round-trip lemmas for the JSON encoding -/

theorem decodeCard_encodeCard (c : Card) : decodeCard (encodeCard c) = some c := rfl

theorem decodeList_encodeCard (cs : List Card) :
    decodeList decodeCard (cs.map encodeCard) = some cs := by
  induction cs with
  | nil => rfl
  | cons c cs ih => simp [List.map, decodeList, decodeCard_encodeCard, ih]

theorem decodeList_jstr (ts : List String) :
    decodeList (fun w => asStr (some w)) (ts.map JValue.jstr) = some ts := by
  induction ts with
  | nil => rfl
  | cons t ts ih =>
    simp only [List.map_cons, decodeList, ih]
    rfl

theorem decodeDoc_encodeDoc (d : Document) : decodeDoc (encodeDoc d) = some d := by
  unfold decodeDoc
  simp [encodeDoc, jget, lookupField, decodeList_encodeCard, decodeList_jstr]

/-! ## Sample data for witnesses and counterexamples -/

/-- A concrete one-card document. -/
def sampleDoc : Document :=
  { cards :=
      [{ id := 1, question := "Q1?", answer := "A1", explanation := "",
         theme := "A", difficulty := "easy", hidden := false, version := "" }],
    themes := ["A"],
    next_id := 2 }

/-! ## Claim C7 -/

/-- C7: `LocalStorage.load()` returns the default empty Document (empty
card sequence, empty theme set, `next_id = 1`) whenever the underlying
file is absent, unreadable, or not valid JSON.  No exception is
propagated: the model of `load` is a total function into `JValue`
because the source catches every exception. -/
theorem local_load_failure_gives_default (fs : LocalFileState)
    (h : fs = .absent ∨ fs = .unreadable ∨ fs = .notJson) :
    LocalStorage.load fs = encodeDoc defaultDocument := by
  rcases h with h | h | h <;> subst h <;> rfl

theorem local_load_failure_gives_default_witness :
    LocalStorage.load .absent = encodeDoc defaultDocument :=
  local_load_failure_gives_default .absent (Or.inl rfl)

/-! ## Claim C8 -/

/-- C8: exporting a document with an empty card sequence fails with the
"no data" error (`ValueError("Нет данных для экспорта")`, re-raised to
the caller) instead of producing a workbook. -/
theorem export_empty_fails_no_data (d : Document) (h : d.cards = []) :
    ExcelExporter.export_to_excel d = .error "Нет данных для экспорта" := by
  unfold ExcelExporter.export_to_excel
  rw [if_pos h]

theorem export_empty_fails_no_data_witness :
    ExcelExporter.export_to_excel defaultDocument = .error "Нет данных для экспорта" :=
  export_empty_fails_no_data defaultDocument rfl

/-! ## Claim C5 -/

theorem hybrid_save_local_outcome (hs : HybridStorage) (v : JValue)
    (senv : LocalSaveEnv) (remote : Except Unit Bool) (fs : LocalFileState) :
    (HybridStorage.save hs v senv remote fs).1.localResult = (LocalStorage.save v senv fs).1
      ∧ (HybridStorage.save hs v senv remote fs).2 = (LocalStorage.save v senv fs).2 := by
  unfold HybridStorage.save
  cases remote <;> by_cases h : (hs.hasYandex && (hs.mode == "yandex" || hs.mode == "hybrid")) = true <;>
    simp [h]

theorem hybrid_save_remote_attempt (hs : HybridStorage) (v : JValue)
    (senv : LocalSaveEnv) (remote : Except Unit Bool) (fs : LocalFileState) :
    ((HybridStorage.save hs v senv remote fs).1.yandexResult ≠ none)
      ↔ (hs.hasYandex && (hs.mode == "yandex" || hs.mode == "hybrid")) = true := by
  unfold HybridStorage.save
  cases remote <;> by_cases h : (hs.hasYandex && (hs.mode == "yandex" || hs.mode == "hybrid")) = true <;>
    simp [h]

/-- C5: for every document value and every configuration built by
`HybridStorage.__init__`, `save` always performs the Local Store write
and reports its outcome unchanged; the Remote Store write is attempted
(`results['yandex'] ≠ None`) iff the resolved mode is `yandex` or
`hybrid` and a truthy remote token was configured; and the reported
local outcome does not depend on the remote outcome. -/
theorem hybrid_save_contract (mode envm token : Option String) (v : JValue)
    (senv : LocalSaveEnv) (remote remote' : Except Unit Bool) (fs : LocalFileState) :
    (HybridStorage.save (HybridStorage.make mode envm token) v senv remote fs).1.localResult
        = (LocalStorage.save v senv fs).1
      ∧ (HybridStorage.save (HybridStorage.make mode envm token) v senv remote fs).2
        = (LocalStorage.save v senv fs).2
      ∧ (((HybridStorage.save (HybridStorage.make mode envm token) v senv remote fs).1.yandexResult ≠ none)
          ↔ (truthyOpt token = true
              ∧ ((HybridStorage.make mode envm token).mode = "yandex"
                  ∨ (HybridStorage.make mode envm token).mode = "hybrid")))
      ∧ (HybridStorage.save (HybridStorage.make mode envm token) v senv remote' fs).1.localResult
        = (HybridStorage.save (HybridStorage.make mode envm token) v senv remote fs).1.localResult := by
  have hy : (HybridStorage.make mode envm token).hasYandex
      = (truthyOpt token
          && ((HybridStorage.make mode envm token).mode == "yandex"
              || (HybridStorage.make mode envm token).mode == "hybrid")) := rfl
  refine ⟨(hybrid_save_local_outcome _ _ _ _ _).1, (hybrid_save_local_outcome _ _ _ _ _).2, ?_, ?_⟩
  · rw [hybrid_save_remote_attempt, hy]
    simp [Bool.and_assoc]
  · rw [(hybrid_save_local_outcome _ _ _ _ _).1, (hybrid_save_local_outcome _ _ _ _ _).1]

/-! ## Claim C1 (amended) -/

/-- C1 (amended): in `hybrid` mode with a remote configured,
`HybridStorage.load` never lets an exception escape, and

* if the Remote Store load *raises*, it returns exactly the value
  `LocalStorage.load()` returns and leaves the local file untouched;
* if the Remote Store load *fails without raising* (404, HTTP error,
  missing href, broken JSON, or an internally-caught exception — every
  non-success path of `YandexDiskStorage.load`), the remote load returns
  the default empty document, which `HybridStorage.load` treats as a
  successful load: it returns the default document and overwrites the
  local cache with it, rather than falling back to the prior local
  content. -/
theorem hybrid_load_remote_failure (hs : HybridStorage) (hm : hs.mode = "hybrid")
    (hy : hs.hasYandex = true) (senv : LocalSaveEnv) (fs : LocalFileState) :
    (∀ e : Unit,
        HybridStorage.load hs (.error e) senv fs = .ok (LocalStorage.load fs, fs))
      ∧ ∀ o : YdLoadOutcome, (∀ w, o ≠ .downloadOk w) →
          HybridStorage.load hs (.ok (YandexDiskStorage.load o)) senv fs
            = .ok (jDefaultDoc, (LocalStorage.save jDefaultDoc senv fs).2) := by
  constructor
  · intro e
    simp [HybridStorage.load, hm, hy]
  · intro o ho
    have hload : YandexDiskStorage.load o = jDefaultDoc := by
      cases o with
      | downloadOk w => exact absurd rfl (ho w)
      | _ => rfl
    rw [hload]
    simp [HybridStorage.load, hm, hy, jTruthy, jDefaultDoc]

theorem hybrid_load_remote_failure_witness :
    HybridStorage.load (HybridStorage.make (some "hybrid") none (some "t"))
        (.error ()) .ok (.json jDefaultDoc)
      = .ok (LocalStorage.load (.json jDefaultDoc), .json jDefaultDoc) :=
  (hybrid_load_remote_failure (HybridStorage.make (some "hybrid") none (some "t"))
    rfl rfl .ok (.json jDefaultDoc)).1 ()

/-- C1 counterexample: with a one-card local file and a remote load that
fails without raising (404 on the download-link request), hybrid-mode
`load` returns the default empty document — not the document
`LocalStorage.load()` returns — and overwrites the local cache with it. -/
theorem hybrid_load_remote_failure_cex :
    HybridStorage.load (HybridStorage.make (some "hybrid") none (some "t"))
        (.ok (YandexDiskStorage.load .linkStatus404)) .ok (.json (encodeDoc sampleDoc))
      = .ok (jDefaultDoc, .json jDefaultDoc)
    ∧ LocalStorage.load (.json (encodeDoc sampleDoc)) = encodeDoc sampleDoc
    ∧ decodeDoc jDefaultDoc = some defaultDocument
    ∧ decodeDoc (encodeDoc sampleDoc) = some sampleDoc
    ∧ defaultDocument ≠ sampleDoc :=
  ⟨rfl, rfl, rfl, rfl, by decide⟩

/-! ## Claim C6 -/

/-- C6: saving a document with `LocalStorage.save` and loading it back
yields a document equal to the original, whenever the save reported
success: the loaded value is exactly the encoding of `d`, and decoding
it (with the field accesses the consumers perform) recovers `d`. -/
theorem local_save_load_roundtrip (d : Document) (env : LocalSaveEnv)
    (fs : LocalFileState) (h : (LocalStorage.save (encodeDoc d) env fs).1 = true) :
    LocalStorage.load (LocalStorage.save (encodeDoc d) env fs).2 = encodeDoc d
      ∧ decodeDoc (LocalStorage.load (LocalStorage.save (encodeDoc d) env fs).2) = some d := by
  cases env with
  | ioFail left => simp [LocalStorage.save] at h
  | ok =>
    have h2 : (LocalStorage.save (encodeDoc d) .ok fs).2 = .json (encodeDoc d) := rfl
    have h3 : LocalStorage.load (.json (encodeDoc d)) = encodeDoc d := rfl
    rw [h2, h3]
    exact ⟨rfl, decodeDoc_encodeDoc d⟩

theorem local_save_load_roundtrip_witness :
    (LocalStorage.save (encodeDoc sampleDoc) .ok .absent).1 = true
      ∧ LocalStorage.load (LocalStorage.save (encodeDoc sampleDoc) .ok .absent).2
        = encodeDoc sampleDoc
      ∧ decodeDoc (LocalStorage.load (LocalStorage.save (encodeDoc sampleDoc) .ok .absent).2)
        = some sampleDoc :=
  ⟨rfl, local_save_load_roundtrip sampleDoc .ok .absent rfl⟩

/-! ## Support lemmas for the importer pipeline -/

instance : IsTotal Card (fun a b => a.id ≤ b.id) :=
  ⟨fun a b => Nat.le_total a.id b.id⟩

instance : IsTrans Card (fun a b => a.id ≤ b.id) :=
  ⟨fun _ _ _ => Nat.le_trans⟩

theorem sortById_perm (l : List Card) : (sortById l).Perm l :=
  List.perm_insertionSort _ l

theorem sortById_sorted (l : List Card) :
    List.Sorted (fun a b : Card => a.id ≤ b.id) (sortById l) :=
  List.sorted_insertionSort _ l

theorem sortById_length (l : List Card) : (sortById l).length = l.length :=
  (sortById_perm l).length_eq

theorem sortById_map_id_of_range (l : List Card) (n : Nat)
    (h : l.map Card.id = List.range' 1 n) :
    (sortById l).map Card.id = List.range' 1 n := by
  have hperm : ((sortById l).map Card.id).Perm (List.range' 1 n) := by
    rw [← h]
    exact (sortById_perm l).map _
  have hs1 : List.Sorted (· ≤ ·) ((sortById l).map Card.id) :=
    List.Pairwise.map _ (fun _ _ hab => hab) (sortById_sorted l)
  have hs2 : List.Sorted (· ≤ ·) (List.range' 1 n) :=
    List.Pairwise.imp Nat.le_of_lt (List.pairwise_lt_range' 1 n)
  exact List.eq_of_perm_of_sorted hperm hs1 hs2

theorem maxId_aux_spec (l : List Card) :
    ∀ m : Nat, m ≤ l.foldl (fun m c => if c.id > m then c.id else m) m
      ∧ ∀ c ∈ l, c.id ≤ l.foldl (fun m c => if c.id > m then c.id else m) m := by
  induction l with
  | nil => intro m; exact ⟨le_refl m, fun c hc => absurd hc (List.not_mem_nil c)⟩
  | cons a as ih =>
    intro m
    have hstep : m ≤ (if a.id > m then a.id else m) ∧ a.id ≤ (if a.id > m then a.id else m) := by
      by_cases h : a.id > m <;> simp [h] <;> omega
    have := ih (if a.id > m then a.id else m)
    refine ⟨le_trans hstep.1 this.1, ?_⟩
    intro c hc
    rcases List.mem_cons.mp hc with h | h
    · subst h
      exact le_trans hstep.2 this.1
    · exact this.2 c h

theorem maxId_spec (l : List Card) : ∀ c ∈ l, c.id ≤ maxId l :=
  (maxId_aux_spec l 0).2

theorem filter_imp_length_le {p q : Nat → Bool} (l : List Nat)
    (h : ∀ x, p x = true → q x = true) :
    (l.filter p).length ≤ (l.filter q).length := by
  induction l with
  | nil => simp
  | cons a as ih =>
    rw [List.filter_cons, List.filter_cons]
    by_cases hp : p a = true
    · rw [if_pos hp, if_pos (h a hp)]
      simpa using ih
    · rw [if_neg hp]
      by_cases hq : q a = true
      · rw [if_pos hq]
        exact le_trans ih (Nat.le_succ _)
      · rw [if_neg hq]
        exact ih

theorem filter_ge_length_lt {assigned : List Nat} {n : Nat} (h : n ∈ assigned) :
    (assigned.filter (fun x => n + 1 ≤ x)).length
      < (assigned.filter (fun x => n ≤ x)).length := by
  induction assigned with
  | nil => cases h
  | cons a as ih =>
    rw [List.filter_cons, List.filter_cons]
    by_cases ha : n = a
    · subst ha
      have h1 : (decide (n + 1 ≤ n)) = false := by simp
      have h2 : (decide (n ≤ n)) = true := by simp
      rw [h1, h2]
      simp only [Bool.false_eq_true, if_false, if_true, List.length_cons]
      exact Nat.lt_succ_of_le (filter_imp_length_le as (fun x hx => by
        simp only [decide_eq_true_eq] at hx ⊢
        omega))
    · have h' : n ∈ as := by
        rcases List.mem_cons.mp h with h | h
        · exact absurd h ha
        · exact h
      by_cases hge : n + 1 ≤ a
      · have hge' : n ≤ a := by omega
        have e1 : (decide (n + 1 ≤ a)) = true := by simpa using hge
        have e2 : (decide (n ≤ a)) = true := by simpa using hge'
        rw [e1, e2, if_pos rfl, if_pos rfl]
        simpa using Nat.succ_lt_succ (ih h')
      · have hna : ¬ (n ≤ a) := by omega
        have e1 : ¬ ((decide (n + 1 ≤ a)) = true) := by simpa using hge
        have e2 : ¬ ((decide (n ≤ a)) = true) := by simpa using hna
        rw [if_neg e1, if_neg e2]
        exact ih h'

theorem nextFreeAux_spec (assigned : List Nat) :
    ∀ fuel n, (assigned.filter (fun x => n ≤ x)).length < fuel →
      nextFreeAux assigned fuel n ∉ assigned ∧ n ≤ nextFreeAux assigned fuel n := by
  intro fuel
  induction fuel with
  | zero => intro n h; exact absurd h (Nat.not_lt_zero _)
  | succ f ih =>
    intro n h
    by_cases hm : n ∈ assigned
    · have hlt : (assigned.filter (fun x => n + 1 ≤ x)).length < f :=
        lt_of_lt_of_le (filter_ge_length_lt hm) (Nat.lt_succ_iff.mp h)
      have := ih (n + 1) hlt
      simp only [nextFreeAux, if_pos hm]
      exact ⟨this.1, le_trans (Nat.le_succ n) this.2⟩
    · simp only [nextFreeAux, if_neg hm]
      exact ⟨hm, le_refl n⟩

theorem nextFree_spec (assigned : List Nat) (n : Nat) :
    nextFree assigned n ∉ assigned ∧ n ≤ nextFree assigned n :=
  nextFreeAux_spec assigned (assigned.length + 1) n
    (Nat.lt_succ_of_le (List.length_filter_le _ _))

theorem nextFree_of_not_mem {assigned : List Nat} {n : Nat} (h : n ∉ assigned) :
    nextFree assigned n = n := by
  simp only [nextFree, nextFreeAux, if_neg h]

theorem renumberFrom_length (n : Nat) (l : List Card) :
    (renumberFrom n l).length = l.length := by
  induction l generalizing n with
  | nil => rfl
  | cons c cs ih => simp [renumberFrom, ih]

theorem renumberFrom_map_id (n : Nat) (l : List Card) :
    (renumberFrom n l).map Card.id = List.range' n l.length := by
  induction l generalizing n with
  | nil => rfl
  | cons c cs ih =>
    simp only [renumberFrom, List.map_cons, List.length_cons, List.range'_succ, ih]

theorem length_filterMap_eq_countP {α β : Type} (f : α → Option β) (l : List α) :
    (l.filterMap f).length = l.countP (fun a => (f a).isSome) := by
  induction l with
  | nil => rfl
  | cons a as ih =>
    rw [List.filterMap_cons, List.countP_cons]
    cases hfa : f a <;> simp [hfa, ih]

theorem appendStep_skip {st : AppendState} {c : Card} (h : cardKey c ∈ st.existingKeys) :
    appendStep st c = { st with skipped := st.skipped + 1 } := by
  unfold appendStep
  rw [if_pos h]

theorem appendStep_new {st : AppendState} {c : Card} (h : cardKey c ∉ st.existingKeys) :
    appendStep st c =
      { st with
        imported := st.imported + 1
        existingKeys := st.existingKeys ++ [cardKey c]
        allCards := st.allCards ++ [c] } := by
  unfold appendStep
  rw [if_neg h]

theorem appendFold_all_new (batch : List Card) :
    ∀ st : AppendState, (∀ c ∈ batch, cardKey c ∉ st.existingKeys) →
      (batch.map cardKey).Nodup →
      batch.foldl appendStep st =
        { existingKeys := st.existingKeys ++ batch.map cardKey
          allCards := st.allCards ++ batch
          imported := st.imported + batch.length
          skipped := st.skipped } := by
  induction batch with
  | nil => intro st _ _; simp
  | cons c cs ih =>
    intro st hnew hnd
    have hc : cardKey c ∉ st.existingKeys := hnew c (List.mem_cons_self c cs)
    have hnd' : cardKey c ∉ cs.map cardKey ∧ (cs.map cardKey).Nodup := by
      rw [List.map_cons, List.nodup_cons] at hnd
      exact hnd
    rw [List.foldl_cons, appendStep_new hc, ih]
    · simp only [List.map_cons, List.length_cons, List.append_assoc, List.singleton_append,
        AppendState.mk.injEq]
      refine ⟨trivial, trivial, by omega, trivial⟩
    · intro x hx
      simp only [List.mem_append, List.mem_singleton, not_or]
      refine ⟨hnew x (List.mem_cons_of_mem c hx), ?_⟩
      intro hEq
      exact hnd'.1 (hEq ▸ List.mem_map_of_mem cardKey hx)
    · exact hnd'.2

/-- Unfolding of `import_from_excel_core` in `append` mode with a
nonempty current card list. -/
theorem import_core_append_eq (doc : Document) (batch : List Card)
    (hne : ¬(batch = [])) (hcards : ¬(doc.cards = [])) :
    ExcelImporter.import_from_excel_core doc batch "append" =
      (let st :=
        batch.foldl appendStep
          { existingKeys := doc.cards.map cardKey, allCards := doc.cards,
            imported := 0, skipped := 0 }
      let allThemes := collectThemes doc.themes st.allCards
      let m := maxId st.allCards
      let assigned := (st.allCards.take doc.cards.length).map Card.id
      let ast :=
        (st.allCards.drop doc.cards.length).foldl assignStep
          { assigned := assigned, newId := m + 1, done := [] }
      let final := st.allCards.take doc.cards.length ++ ast.done
      some
        ({ cards := sortById final, themes := allThemes, next_id := ast.newId },
          { imported := st.imported, skipped := st.skipped, errors := 0,
            total := (sortById final).length, themesCount := allThemes.length,
            mode := "append", next_id := ast.newId,
            previous_total := doc.cards.length })) := by
  unfold ExcelImporter.import_from_excel_core
  have hm : ¬(("append" : String) = "replace") := by decide
  have hcond : ¬(("append" : String) = "replace" ∨ doc.cards = []) := by
    simp [hm, hcards]
  rw [if_neg hne]
  simp only [if_neg hm, if_neg hcond]

/-- Unfolding of `import_from_excel_core` in `replace` mode. -/
theorem import_core_replace_eq (doc : Document) (batch : List Card)
    (hne : ¬(batch = [])) :
    ExcelImporter.import_from_excel_core doc batch "replace" =
      (let allThemes := collectThemes [] batch
      some
        ({ cards := sortById (renumberFrom 1 batch), themes := allThemes,
            next_id := batch.length + 1 },
          { imported := batch.length, skipped := 0, errors := 0,
            total := (sortById (renumberFrom 1 batch)).length,
            themesCount := allThemes.length, mode := "replace",
            next_id := batch.length + 1, previous_total := doc.cards.length })) := by
  unfold ExcelImporter.import_from_excel_core
  rw [if_neg hne]
  simp only [eq_self_iff_true, true_or, if_true]

/-- Unfolding of `import_from_excel_core` in `append` mode when the
current card list is empty: the replace-style renumbering applies. -/
theorem import_core_append_empty_eq (themes : List String) (n : Nat) (batch : List Card)
    (hne : ¬(batch = [])) :
    ExcelImporter.import_from_excel_core ⟨[], themes, n⟩ batch "append" =
      (let st :=
        batch.foldl appendStep
          { existingKeys := [], allCards := [], imported := 0, skipped := 0 }
      let allThemes := collectThemes themes st.allCards
      some
        ({ cards := sortById (renumberFrom 1 st.allCards), themes := allThemes,
            next_id := st.allCards.length + 1 },
          { imported := st.imported, skipped := st.skipped, errors := 0,
            total := (sortById (renumberFrom 1 st.allCards)).length,
            themesCount := allThemes.length, mode := "append",
            next_id := st.allCards.length + 1, previous_total := 0 })) := by
  unfold ExcelImporter.import_from_excel_core
  have hm : ¬(("append" : String) = "replace") := by decide
  rw [if_neg hne]
  simp only [if_neg hm, eq_self_iff_true, or_true, if_true, List.map_nil, List.length_nil]

/-! ## Claim C3 -/

/-- C3: a card whose normalized question (case-folded,
punctuation-stripped, whitespace-collapsed) matches an existing card's
normalized question is a duplicate: the reconciliation step increments
`skipped` and changes nothing else, and importing such a card in append
mode yields `skipped = 1`, `imported = 0` and an unchanged card count. -/
theorem import_append_duplicate_skipped (doc : Document) (c : Card)
    (h : cardKey c ∈ doc.cards.map cardKey) :
    (∀ st : AppendState, cardKey c ∈ st.existingKeys →
        appendStep st c = { st with skipped := st.skipped + 1 })
      ∧ ∃ d stats,
          ExcelImporter.import_from_excel_core doc [c] "append" = some (d, stats)
            ∧ stats.skipped = 1 ∧ stats.imported = 0
            ∧ stats.total = doc.cards.length ∧ d.cards.length = doc.cards.length := by
  have hcards : ¬(doc.cards = []) := by
    intro hc
    rw [hc] at h
    simp at h
  refine ⟨fun st hst => appendStep_skip hst, ?_⟩
  rw [import_core_append_eq doc [c] (by simp) hcards]
  have h1 :
      List.foldl appendStep
        { existingKeys := doc.cards.map cardKey, allCards := doc.cards,
          imported := 0, skipped := 0 } [c]
      = { existingKeys := doc.cards.map cardKey, allCards := doc.cards,
          imported := 0, skipped := 1 } := by
    rw [List.foldl_cons, appendStep_skip h, List.foldl_nil]
  simp only [h1, List.drop_length, List.foldl_nil, List.take_length, List.append_nil]
  exact ⟨_, _, rfl, rfl, rfl, sortById_length doc.cards, sortById_length doc.cards⟩

/-- A card whose question already normalizes to the key of the sample
document's card. -/
def dupCard : Card :=
  { id := 0, question := "q1", answer := "other", explanation := "",
    theme := "", difficulty := "medium", hidden := false, version := "" }

theorem import_append_duplicate_skipped_witness :
    cardKey dupCard ∈ sampleDoc.cards.map cardKey
      ∧ ((∀ st : AppendState, cardKey dupCard ∈ st.existingKeys →
            appendStep st dupCard = { st with skipped := st.skipped + 1 })
          ∧ ∃ d stats,
              ExcelImporter.import_from_excel_core sampleDoc [dupCard] "append"
                  = some (d, stats)
                ∧ stats.skipped = 1 ∧ stats.imported = 0
                ∧ stats.total = sampleDoc.cards.length
                ∧ d.cards.length = sampleDoc.cards.length) :=
  ⟨by decide, import_append_duplicate_skipped sampleDoc dupCard (by decide)⟩

/-! ## Claim C4 -/

/-- C4: importing in replace mode makes the parsed rows the entire
document: the card count equals the number of parsed (non-skipped) rows,
the identifiers are exactly `1..count` in order, `next_id` is
`count + 1`, and the themes are rebuilt from the imported cards alone
(the prior themes do not enter the computation). -/
theorem import_replace_renumbers (doc : Document) (rows : List (List String))
    (h : ExcelImporter.parse_excel_data rows ≠ []) :
    ∃ d stats,
      ExcelImporter.import_from_excel_core doc (ExcelImporter.parse_excel_data rows) "replace"
          = some (d, stats)
        ∧ d.cards.length = (ExcelImporter.parse_excel_data rows).length
        ∧ d.cards.map Card.id = List.range' 1 (ExcelImporter.parse_excel_data rows).length
        ∧ d.next_id = (ExcelImporter.parse_excel_data rows).length + 1
        ∧ d.themes = collectThemes [] (ExcelImporter.parse_excel_data rows)
        ∧ (ExcelImporter.parse_excel_data rows).length
            = (rows.drop 1).countP (fun r => (ExcelImporter.parseRow r).isSome) := by
  rw [import_core_replace_eq doc (ExcelImporter.parse_excel_data rows) h]
  refine ⟨_, _, rfl, ?_, ?_, rfl, rfl, ?_⟩
  · rw [sortById_length, renumberFrom_length]
  · exact sortById_map_id_of_range _ _ (renumberFrom_map_id 1 _)
  · have h2 : ¬(rows.length < 2) := by
      intro hlt
      apply h
      unfold ExcelImporter.parse_excel_data
      rw [if_pos hlt]
    unfold ExcelImporter.parse_excel_data
    rw [if_neg h2]
    exact length_filterMap_eq_countP _ _

/-- Concrete workbook rows for the witnesses: a header row and one data
row. -/
def rowsC4 : List (List String) :=
  [["№", "Вопрос", "Ответ", "Объяснение", "Тема", "Сложность", "Скрытый", "Версия"],
    ["1", "Q1", "A1", "", "T", "easy", "нет", ""]]

theorem import_replace_renumbers_witness :
    ExcelImporter.parse_excel_data rowsC4 ≠ []
      ∧ ∃ d stats,
          ExcelImporter.import_from_excel_core sampleDoc
              (ExcelImporter.parse_excel_data rowsC4) "replace" = some (d, stats)
            ∧ d.cards.length = (ExcelImporter.parse_excel_data rowsC4).length
            ∧ d.cards.map Card.id = List.range' 1 (ExcelImporter.parse_excel_data rowsC4).length
            ∧ d.next_id = (ExcelImporter.parse_excel_data rowsC4).length + 1
            ∧ d.themes = collectThemes [] (ExcelImporter.parse_excel_data rowsC4)
            ∧ (ExcelImporter.parse_excel_data rowsC4).length
                = (rowsC4.drop 1).countP (fun r => (ExcelImporter.parseRow r).isSome) :=
  ⟨by decide, import_replace_renumbers sampleDoc rowsC4 (by decide)⟩

/-! ## Identifier-irrelevance lemmas for claim C9 -/

theorem cardKey_setId (f : Card → Nat) (c : Card) :
    cardKey { c with id := f c } = cardKey c := rfl

theorem appendFold_map_setId (f : Card → Nat) (batch : List Card) :
    ∀ (keys : List String) (cards0 : List Card) (i s : Nat),
      (batch.map (fun c => { c with id := f c })).foldl appendStep
          { existingKeys := keys, allCards := cards0.map (fun c => { c with id := f c }),
            imported := i, skipped := s }
        = (let r := batch.foldl appendStep
              { existingKeys := keys, allCards := cards0, imported := i, skipped := s }
           { existingKeys := r.existingKeys,
             allCards := r.allCards.map (fun c => { c with id := f c }),
             imported := r.imported, skipped := r.skipped }) := by
  induction batch with
  | nil => intro keys cards0 i s; rfl
  | cons c cs ih =>
    intro keys cards0 i s
    simp only [List.map_cons, List.foldl_cons]
    by_cases h : cardKey c ∈ keys
    · have h' : cardKey { c with id := f c } ∈ keys := by rw [cardKey_setId]; exact h
      rw [appendStep_skip h', appendStep_skip h]
      exact ih keys cards0 i (s + 1)
    · have h' : cardKey { c with id := f c } ∉ keys := by rw [cardKey_setId]; exact h
      rw [appendStep_new h', appendStep_new h]
      have hmap : (cards0.map (fun c => { c with id := f c })) ++ [{ c with id := f c }]
          = (cards0 ++ [c]).map (fun c => { c with id := f c }) := by
        rw [List.map_append, List.map_cons, List.map_nil]
      simp only [cardKey_setId, hmap]
      exact ih (keys ++ [cardKey c]) (cards0 ++ [c]) (i + 1) s

theorem renumberFrom_map_setId (f : Card → Nat) (n : Nat) (l : List Card) :
    renumberFrom n (l.map (fun c => { c with id := f c })) = renumberFrom n l := by
  induction l generalizing n with
  | nil => rfl
  | cons c cs ih =>
    simp only [List.map_cons, renumberFrom, ih]

theorem collectThemes_map_setId (f : Card → Nat) (base : List String) (l : List Card) :
    collectThemes base (l.map (fun c => { c with id := f c })) = collectThemes base l := by
  unfold collectThemes
  have haux : ∀ acc : List String,
      (l.map (fun c => { c with id := f c })).foldl
          (fun acc c => if c.theme ≠ "" then (themeTokens c.theme).foldl setInsert acc else acc)
          acc
        = l.foldl
            (fun acc c => if c.theme ≠ "" then (themeTokens c.theme).foldl setInsert acc else acc)
            acc := by
    induction l with
    | nil => intro acc; rfl
    | cons c cs ih =>
      intro acc
      simp only [List.map_cons, List.foldl_cons]
      exact ih _
  rw [haux]

/-! ## Claim C9 -/

/-- C9: in append mode against a document with zero cards, the importer
applies replace-style identifier recomputation: the surviving cards are
renumbered `1..N` in sequence order, `next_id` becomes `N + 1`, and both
the old `next_id` watermark and any identifier values carried by the
imported cards are ignored (the result is invariant under changing
them). -/
theorem import_append_empty_renumbers (themes : List String) (n : Nat) (batch : List Card)
    (hne : batch ≠ []) :
    (∃ d stats,
        ExcelImporter.import_from_excel_core ⟨[], themes, n⟩ batch "append" = some (d, stats)
          ∧ d.cards.map Card.id = List.range' 1 d.cards.length
          ∧ d.next_id = d.cards.length + 1)
      ∧ (∀ n' : Nat,
          ExcelImporter.import_from_excel_core ⟨[], themes, n'⟩ batch "append"
            = ExcelImporter.import_from_excel_core ⟨[], themes, n⟩ batch "append")
      ∧ ∀ f : Card → Nat,
          ExcelImporter.import_from_excel_core ⟨[], themes, n⟩
              (batch.map (fun c => { c with id := f c })) "append"
            = ExcelImporter.import_from_excel_core ⟨[], themes, n⟩ batch "append" := by
  refine ⟨?_, ?_, ?_⟩
  · rw [import_core_append_empty_eq themes n batch hne]
    refine ⟨_, _, rfl, ?_, ?_⟩
    · simp only [sortById_length, renumberFrom_length]
      exact sortById_map_id_of_range _ _ (renumberFrom_map_id 1 _)
    · simp only [sortById_length, renumberFrom_length]
  · intro n'
    rw [import_core_append_empty_eq themes n' batch hne,
      import_core_append_empty_eq themes n batch hne]
  · intro f
    have hne' : batch.map (fun c => { c with id := f c }) ≠ [] := by
      simpa using hne
    rw [import_core_append_empty_eq themes n _ hne',
      import_core_append_empty_eq themes n batch hne]
    have hfold := appendFold_map_setId f batch [] [] 0 0
    simp only [List.map_nil] at hfold
    rw [hfold]
    simp only [renumberFrom_map_setId, collectThemes_map_setId, List.length_map]

theorem import_append_empty_renumbers_witness :
    ([dupCard] : List Card) ≠ []
      ∧ ((∃ d stats,
            ExcelImporter.import_from_excel_core ⟨[], ["T"], 5⟩ [dupCard] "append"
                = some (d, stats)
              ∧ d.cards.map Card.id = List.range' 1 d.cards.length
              ∧ d.next_id = d.cards.length + 1)
          ∧ (∀ n' : Nat,
              ExcelImporter.import_from_excel_core ⟨[], ["T"], n'⟩ [dupCard] "append"
                = ExcelImporter.import_from_excel_core ⟨[], ["T"], 5⟩ [dupCard] "append")
          ∧ ∀ f : Card → Nat,
              ExcelImporter.import_from_excel_core ⟨[], ["T"], 5⟩
                  ([dupCard].map (fun c => { c with id := f c })) "append"
                = ExcelImporter.import_from_excel_core ⟨[], ["T"], 5⟩ [dupCard] "append") :=
  ⟨by decide, import_append_empty_renumbers ["T"] 5 [dupCard] (by decide)⟩

/-! ## Claim C2: assignment-loop invariant -/

/-- Invariant of the identifier-assignment loop, relative to the
baseline `base` of pre-existing identifiers: the assigned set is exactly
the baseline followed by the identifiers of the processed cards, it is
duplicate-free, and every assigned identifier is below the running
`newId`. -/
def AssignInv (base : List Nat) (st : AssignState) : Prop :=
  st.assigned = base ++ st.done.map Card.id
    ∧ st.assigned.Nodup
    ∧ ∀ a ∈ st.assigned, a < st.newId

theorem assignStep_inv {base : List Nat} {st : AssignState} {c : Card}
    (hinv : AssignInv base st) (hc : c.id < st.newId) :
    AssignInv base (assignStep st c)
      ∧ st.newId ≤ (assignStep st c).newId
      ∧ (assignStep st c).done.length = st.done.length + 1 := by
  obtain ⟨hcar, hnd, hlt⟩ := hinv
  by_cases h : c.id = 0 ∨ c.id ∈ st.assigned
  · have hnm : st.newId ∉ st.assigned := fun hmem => absurd (hlt _ hmem) (lt_irrefl _)
    have hnid : nextFree st.assigned st.newId = st.newId := nextFree_of_not_mem hnm
    unfold assignStep
    rw [if_pos h, hnid]
    refine ⟨⟨?_, ?_, ?_⟩, Nat.le_succ _, by simp⟩
    · rw [hcar, List.map_append, List.map_cons, List.map_nil, ← List.append_assoc]
    · rw [List.nodup_append]
      exact ⟨hnd, List.nodup_singleton _, by rwa [List.disjoint_singleton]⟩
    · intro a ha
      rcases List.mem_append.mp ha with ha | ha
      · exact Nat.lt_succ_of_lt (hlt a ha)
      · rw [List.mem_singleton.mp ha]
        exact Nat.lt_succ_self _
  · unfold assignStep
    rw [if_neg h]
    push_neg at h
    refine ⟨⟨?_, ?_, ?_⟩, le_refl _, by simp⟩
    · rw [hcar, List.map_append, List.map_cons, List.map_nil, ← List.append_assoc]
    · rw [List.nodup_append]
      exact ⟨hnd, List.nodup_singleton _, by rw [List.disjoint_singleton]; exact h.2⟩
    · intro a ha
      rcases List.mem_append.mp ha with ha | ha
      · exact hlt a ha
      · rw [List.mem_singleton.mp ha]
        exact hc

theorem assignFold_inv (newCards : List Card) :
    ∀ (base : List Nat) (st : AssignState), AssignInv base st →
      (∀ c ∈ newCards, c.id < st.newId) →
      AssignInv base (newCards.foldl assignStep st)
        ∧ st.newId ≤ (newCards.foldl assignStep st).newId
        ∧ (newCards.foldl assignStep st).done.length
          = st.done.length + newCards.length := by
  induction newCards with
  | nil => intro base st hinv _; exact ⟨hinv, le_refl _, rfl⟩
  | cons c cs ih =>
    intro base st hinv hlt
    rw [List.foldl_cons]
    obtain ⟨h1, h2, h3⟩ := assignStep_inv hinv (hlt c (List.mem_cons_self c cs))
    obtain ⟨g1, g2, g3⟩ :=
      ih base _ h1 (fun x hx => lt_of_lt_of_le (hlt x (List.mem_cons_of_mem c hx)) h2)
    refine ⟨g1, le_trans h2 g2, ?_⟩
    rw [g3, h3, List.length_cons]
    omega

/-! ## Claim C2 (amended) -/

/-- C2 (amended): importing N cards with wholly fresh, pairwise distinct
normalized questions in append mode increments `imported` by exactly N
and appends exactly N cards.  Provided the existing identifiers are
pairwise distinct, all card identifiers of the resulting document are
pairwise distinct and the resulting `next_id` exceeds every one of them.
The appended identifiers need NOT be `≥` the old `next_id` watermark: a
carried non-colliding identifier is kept as-is, and freshly assigned
identifiers start just above the maximum identifier present, which can
lie below the old `next_id` (see the counterexample). -/
theorem import_append_new_unique_ids (doc : Document) (batch : List Card)
    (hne : batch ≠ []) (hkeys : (batch.map cardKey).Nodup)
    (hdisj : ∀ c ∈ batch, cardKey c ∉ doc.cards.map cardKey)
    (hids : (doc.cards.map Card.id).Nodup) :
    ∃ d stats,
      ExcelImporter.import_from_excel_core doc batch "append" = some (d, stats)
        ∧ stats.imported = batch.length ∧ stats.skipped = 0
        ∧ d.cards.length = doc.cards.length + batch.length
        ∧ (d.cards.map Card.id).Nodup
        ∧ ∀ i ∈ d.cards.map Card.id, i < d.next_id := by
  by_cases hcards : doc.cards = []
  · obtain ⟨cards, themes, nid⟩ := doc
    simp only at hcards
    subst hcards
    rw [import_core_append_empty_eq themes nid batch hne]
    have hfold :
        List.foldl appendStep
            { existingKeys := [], allCards := [], imported := 0, skipped := 0 } batch
          = { existingKeys := batch.map cardKey, allCards := batch,
              imported := batch.length, skipped := 0 } := by
      rw [appendFold_all_new batch _ (fun c _ hmem => (List.not_mem_nil _ hmem)) hkeys]
      simp
    rw [hfold]
    have hrange : (sortById (renumberFrom 1 batch)).map Card.id
        = List.range' 1 batch.length :=
      sortById_map_id_of_range _ _ (renumberFrom_map_id 1 batch)
    refine ⟨_, _, rfl, rfl, rfl, ?_, ?_, ?_⟩
    · simp [sortById_length, renumberFrom_length]
    · rw [hrange]
      exact List.nodup_range' 1 batch.length
    · intro i hi
      rw [hrange] at hi
      obtain ⟨k, hk, hik⟩ := List.mem_range'.mp hi
      simp only
      omega
  · rw [import_core_append_eq doc batch hne hcards]
    have hfold :
        List.foldl appendStep
            { existingKeys := doc.cards.map cardKey, allCards := doc.cards,
              imported := 0, skipped := 0 } batch
          = { existingKeys := doc.cards.map cardKey ++ batch.map cardKey,
              allCards := doc.cards ++ batch,
              imported := batch.length, skipped := 0 } := by
      rw [appendFold_all_new batch _ hdisj hkeys]
      simp
    rw [hfold]
    dsimp only
    rw [List.take_left, List.drop_left]
    have hbase :
        AssignInv (doc.cards.map Card.id)
          { assigned := doc.cards.map Card.id,
            newId := maxId (doc.cards ++ batch) + 1, done := [] } := by
      refine ⟨by simp, hids, ?_⟩
      intro a ha
      show a < maxId (doc.cards ++ batch) + 1
      obtain ⟨c, hc, hca⟩ := List.mem_map.mp ha
      have := maxId_spec (doc.cards ++ batch) c (List.mem_append_left batch hc)
      omega
    have hbatch : ∀ c ∈ batch, c.id < maxId (doc.cards ++ batch) + 1 := by
      intro c hc
      have := maxId_spec (doc.cards ++ batch) c (List.mem_append_right doc.cards hc)
      omega
    obtain ⟨⟨fcar, fnd, fbound⟩, _, flen⟩ := assignFold_inv batch _ _ hbase hbatch
    refine ⟨_, _, rfl, rfl, rfl, ?_, ?_, ?_⟩
    · rw [sortById_length, List.length_append, flen]
      simp
    · have hperm :
          ((sortById (doc.cards ++
              (batch.foldl assignStep
                { assigned := doc.cards.map Card.id,
                  newId := maxId (doc.cards ++ batch) + 1, done := [] }).done)).map Card.id).Perm
            ((doc.cards ++
              (batch.foldl assignStep
                { assigned := doc.cards.map Card.id,
                  newId := maxId (doc.cards ++ batch) + 1, done := [] }).done).map Card.id) :=
        (sortById_perm _).map _
      rw [hperm.nodup_iff, List.map_append, ← fcar]
      exact fnd
    · intro i hi
      have hperm :
          ((sortById (doc.cards ++
              (batch.foldl assignStep
                { assigned := doc.cards.map Card.id,
                  newId := maxId (doc.cards ++ batch) + 1, done := [] }).done)).map Card.id).Perm
            ((doc.cards ++
              (batch.foldl assignStep
                { assigned := doc.cards.map Card.id,
                  newId := maxId (doc.cards ++ batch) + 1, done := [] }).done).map Card.id) :=
        (sortById_perm _).map _
      rw [hperm.mem_iff, List.map_append, ← fcar] at hi
      exact fbound i hi

/-- A fresh imported card carrying no identifier. -/
def cardB : Card :=
  { id := 0, question := "B2?", answer := "B1", explanation := "",
    theme := "", difficulty := "medium", hidden := false, version := "" }

theorem import_append_new_unique_ids_witness :
    ([cardB] ≠ ([] : List Card))
      ∧ ([cardB].map cardKey).Nodup
      ∧ (∀ c ∈ [cardB], cardKey c ∉ sampleDoc.cards.map cardKey)
      ∧ (sampleDoc.cards.map Card.id).Nodup
      ∧ ∃ d stats,
          ExcelImporter.import_from_excel_core sampleDoc [cardB] "append" = some (d, stats)
            ∧ stats.imported = [cardB].length ∧ stats.skipped = 0
            ∧ d.cards.length = sampleDoc.cards.length + [cardB].length
            ∧ (d.cards.map Card.id).Nodup
            ∧ ∀ i ∈ d.cards.map Card.id, i < d.next_id :=
  ⟨by decide, by decide, by decide, by decide,
    import_append_new_unique_ids sampleDoc [cardB] (by decide) (by decide) (by decide)
      (by decide)⟩

/-- The sample document with a high `next_id` watermark (a legal state:
`next_id` only has to exceed the maximum identifier). -/
def docC2 : Document :=
  { cards := sampleDoc.cards, themes := [], next_id := 10 }

/-- C2 counterexample: importing one fresh card (distinct normalized
question, carried id 0) into `docC2` appends it with identifier 2, which
is *below* the old `next_id = 10`, refuting "each appended card ends
with a unique identifier greater than or equal to the document's old
next_id"; fresh identifiers are assigned from the maximum existing
identifier + 1, not from the `next_id` watermark. -/
theorem import_append_new_unique_ids_cex :
    (([cardB].map cardKey).Nodup
        ∧ (∀ c ∈ [cardB], cardKey c ∉ docC2.cards.map cardKey)
        ∧ (docC2.cards.map Card.id).Nodup)
      ∧ ExcelImporter.import_from_excel_core docC2 [cardB] "append"
          = some
            ({ cards := docC2.cards ++ [{ cardB with id := 2 }], themes := ["A"],
                next_id := 3 },
              { imported := 1, skipped := 0, errors := 0, total := 2, themesCount := 1,
                mode := "append", next_id := 3, previous_total := 1 })
      ∧ docC2.next_id = 10
      ∧ ¬(docC2.next_id ≤ 2) :=
  ⟨⟨by decide, by decide, by decide⟩, by decide, rfl, by decide⟩

/-! ## Claim C10: support lemmas about the text pipeline -/

theorem isSpace_eq_true_iff (c : Char) :
    isSpace c = true
      ↔ c = ' ' ∨ c = '\t' ∨ c = '\n' ∨ c = '\r' ∨ c = '\x0b' ∨ c = '\x0c' := by
  unfold isSpace
  simp [Bool.or_eq_true, beq_iff_eq]
  tauto

theorem isWordChar_isSpace_false {c : Char} (h : isWordChar c = true) :
    isSpace c = false := by
  cases hs : isSpace c
  · rfl
  · exfalso
    rcases (isSpace_eq_true_iff c).mp hs with h' | h' | h' | h' | h' | h' <;>
      subst h' <;> exact absurd h (by decide)

/-- No suffix of `s` starts with `pat`: `pat` does not occur in `s`. -/
def NoOccur (pat s : List Char) : Prop :=
  ∀ s', s' <:+ s → pat.isPrefixOf s' = false

theorem isPrefixOf_mem : ∀ {p s : List Char}, p.isPrefixOf s = true → ∀ x ∈ p, x ∈ s := by
  intro p
  induction p with
  | nil => intro s _ x hx; cases hx
  | cons a as ih =>
    intro s hp x hx
    cases s with
    | nil => simp [List.isPrefixOf] at hp
    | cons b bs =>
      simp only [List.isPrefixOf, Bool.and_eq_true, beq_iff_eq] at hp
      rcases List.mem_cons.mp hx with rfl | hx'
      · rw [hp.1]
        exact List.mem_cons_self b bs
      · exact List.mem_cons_of_mem b (ih hp.2 x hx')

theorem noOccur_of_not_mem {x : Char} {pat s : List Char} (hx : x ∈ pat) (hs : x ∉ s) :
    NoOccur pat s := by
  intro s' hsuf
  cases hb : pat.isPrefixOf s'
  · rfl
  · exfalso
    obtain ⟨t, ht⟩ := hsuf
    exact hs (ht ▸ List.mem_append_right t (isPrefixOf_mem hb x hx))

theorem replaceAllAux_no_occur (pat rep : List Char) :
    ∀ fuel s, NoOccur pat s → replaceAllAux pat rep fuel s = s := by
  intro fuel
  induction fuel with
  | zero => intro s _; cases s <;> rfl
  | succ f ih =>
    intro s h
    cases s with
    | nil => rfl
    | cons c cs =>
      have hpre : pat.isPrefixOf (c :: cs) = false := h (c :: cs) (List.suffix_refl _)
      have hcond : ¬(pat ≠ [] ∧ pat.isPrefixOf (c :: cs) = true) := by
        rintro ⟨-, hp⟩
        rw [hpre] at hp
        exact Bool.false_ne_true hp
      simp only [replaceAllAux, if_neg hcond]
      congr 1
      apply ih
      intro s' hs'
      exact h s' (hs'.trans (List.suffix_cons c cs))

theorem replaceAll_no_occur {pat s : List Char} (rep : List Char) (h : NoOccur pat s) :
    replaceAll pat rep s = s :=
  replaceAllAux_no_occur pat rep s.length s h

theorem splitOnChar_not_mem {sep : Char} : ∀ {l : List Char}, sep ∉ l →
    splitOnChar sep l = [l] := by
  intro l
  induction l with
  | nil => intro _; rfl
  | cons c cs ih =>
    intro h
    have hc : ¬(c = sep) := fun e => h (by rw [← e]; exact List.mem_cons_self c cs)
    have hcs : sep ∉ cs := fun hm => h (List.mem_cons_of_mem c hm)
    simp only [splitOnChar, if_neg hc, ih hcs]

/-- The head of the list, if any, fails the predicate. -/
def headNotSpace (l : List Char) : Prop :=
  ∀ c, l.head? = some c → isSpace c = false

/-- The last element of the list, if any, fails the predicate. -/
def lastNotSpace (l : List Char) : Prop :=
  ∀ c, l.getLast? = some c → isSpace c = false

theorem dropWhile_head_false (p : Char → Bool) :
    ∀ (l : List Char) (c : Char), (l.dropWhile p).head? = some c → p c = false := by
  intro l
  induction l with
  | nil => intro c h; simp at h
  | cons a as ih =>
    intro c h
    by_cases pa : p a = true
    · rw [List.dropWhile_cons, if_pos pa] at h
      exact ih c h
    · rw [List.dropWhile_cons, if_neg pa] at h
      simp only [List.head?_cons, Option.some.injEq] at h
      subst h
      exact Bool.eq_false_iff.mpr pa

theorem dropWhile_eq_self (p : Char → Bool) {l : List Char}
    (h : ∀ c, l.head? = some c → p c = false) :
    l.dropWhile p = l := by
  cases l with
  | nil => rfl
  | cons a as =>
    rw [List.dropWhile_cons, if_neg]
    rw [h a rfl]
    simp

theorem dropWhile_suffix_decomp (p : Char → Bool) (l : List Char) :
    ∃ pre, l = pre ++ l.dropWhile p := by
  induction l with
  | nil => exact ⟨[], rfl⟩
  | cons a as ih =>
    by_cases hp : p a = true
    · obtain ⟨pre, hpre⟩ := ih
      exact ⟨a :: pre, by simp [List.dropWhile_cons, hp, ← hpre]⟩
    · exact ⟨[], by simp [List.dropWhile_cons, hp]⟩

theorem dropWhile_subset {p : Char → Bool} {l : List Char} {c : Char}
    (h : c ∈ l.dropWhile p) : c ∈ l := by
  obtain ⟨pre, hpre⟩ := dropWhile_suffix_decomp p l
  rw [hpre]
  exact List.mem_append_right pre h

theorem trimChars_subset {l : List Char} {c : Char} (h : c ∈ trimChars l) : c ∈ l := by
  unfold trimChars at h
  rw [List.mem_reverse] at h
  have h2 := dropWhile_subset h
  rw [List.mem_reverse] at h2
  exact dropWhile_subset h2

theorem chain'_append_right {α : Type} {R : α → α → Prop} :
    ∀ (pre s : List α), List.Chain' R (pre ++ s) → List.Chain' R s := by
  intro pre
  induction pre with
  | nil => exact fun s h => h
  | cons a pre' ih => intro s h; exact ih s h.tail

theorem chain'_dropWhile {R : Char → Char → Prop} (p : Char → Bool) (l : List Char)
    (h : List.Chain' R l) : List.Chain' R (l.dropWhile p) := by
  obtain ⟨pre, hp⟩ := dropWhile_suffix_decomp p l
  exact chain'_append_right pre _ (hp ▸ h)

theorem trimChars_chain {l : List Char}
    (h : List.Chain' (fun a b : Char => ¬(a = ' ' ∧ b = ' ')) l) :
    List.Chain' (fun a b : Char => ¬(a = ' ' ∧ b = ' ')) (trimChars l) := by
  have hsym : ∀ (a b : Char), ¬(a = ' ' ∧ b = ' ') → ¬(b = ' ' ∧ a = ' ') :=
    fun a b hab ⟨h1, h2⟩ => hab ⟨h2, h1⟩
  unfold trimChars
  have h1 := chain'_dropWhile isSpace l h
  have h2 : List.Chain' (fun a b : Char => ¬(a = ' ' ∧ b = ' '))
      ((l.dropWhile isSpace).reverse) :=
    List.chain'_reverse.mpr (h1.imp hsym)
  have h3 := chain'_dropWhile isSpace _ h2
  exact List.chain'_reverse.mpr (h3.imp hsym)

theorem trimChars_ends (l : List Char) :
    headNotSpace (trimChars l) ∧ lastNotSpace (trimChars l) := by
  unfold trimChars
  constructor
  · intro c hc
    rw [List.head?_reverse] at hc
    have hne : (l.dropWhile isSpace).reverse.dropWhile isSpace ≠ [] := by
      intro he
      rw [he] at hc
      simp at hc
    obtain ⟨pre, hpre⟩ := dropWhile_suffix_decomp isSpace (l.dropWhile isSpace).reverse
    have hu : ((l.dropWhile isSpace).reverse).getLast? = some c := by
      rw [hpre, List.getLast?_append_of_ne_nil pre hne]
      exact hc
    rw [List.getLast?_reverse] at hu
    exact dropWhile_head_false isSpace l c hu
  · intro c hc
    rw [List.getLast?_reverse] at hc
    exact dropWhile_head_false isSpace _ c hc

theorem collapseWsAux_mem :
    ∀ (l : List Char) (b : Bool) (c : Char), c ∈ collapseWsAux b l → c ∈ l ∨ c = ' ' := by
  intro l
  induction l with
  | nil => intro b c h; simp [collapseWsAux] at h
  | cons a as ih =>
    intro b c h
    simp only [collapseWsAux] at h
    by_cases ha : isSpace a = true
    · rw [if_pos ha] at h
      cases b with
      | true =>
        simp only [if_pos rfl] at h
        rcases ih true c h with h' | h'
        · exact Or.inl (List.mem_cons_of_mem a h')
        · exact Or.inr h'
      | false =>
        simp only [Bool.false_eq_true, if_false] at h
        rcases List.mem_cons.mp h with h' | h'
        · exact Or.inr h'
        · rcases ih true c h' with h'' | h''
          · exact Or.inl (List.mem_cons_of_mem a h'')
          · exact Or.inr h''
    · rw [if_neg ha] at h
      rcases List.mem_cons.mp h with h' | h'
      · exact Or.inl (h' ▸ List.mem_cons_self a as)
      · rcases ih false c h' with h'' | h''
        · exact Or.inl (List.mem_cons_of_mem a h'')
        · exact Or.inr h''

theorem collapseWsAux_space :
    ∀ (l : List Char) (b : Bool) (c : Char), c ∈ collapseWsAux b l →
      isSpace c = true → c = ' ' := by
  intro l
  induction l with
  | nil => intro b c h; simp [collapseWsAux] at h
  | cons a as ih =>
    intro b c h hc
    simp only [collapseWsAux] at h
    by_cases ha : isSpace a = true
    · rw [if_pos ha] at h
      cases b with
      | true =>
        simp only [if_pos rfl] at h
        exact ih true c h hc
      | false =>
        simp only [Bool.false_eq_true, if_false] at h
        rcases List.mem_cons.mp h with h' | h'
        · exact h'
        · exact ih true c h' hc
    · rw [if_neg ha] at h
      rcases List.mem_cons.mp h with h' | h'
      · subst h'
        exact absurd hc ha
      · exact ih false c h' hc

theorem collapseWsAux_true_head :
    ∀ (l : List Char) (c : Char), (collapseWsAux true l).head? = some c →
      isSpace c = false := by
  intro l
  induction l with
  | nil => intro c h; simp [collapseWsAux] at h
  | cons a as ih =>
    intro c h
    simp only [collapseWsAux] at h
    by_cases ha : isSpace a = true
    · rw [if_pos ha] at h
      exact ih c h
    · rw [if_neg ha] at h
      simp only [List.head?_cons, Option.some.injEq] at h
      subst h
      exact Bool.eq_false_iff.mpr ha

theorem collapseWsAux_chain :
    ∀ (l : List Char) (b : Bool),
      List.Chain' (fun a b : Char => ¬(a = ' ' ∧ b = ' ')) (collapseWsAux b l) := by
  intro l
  induction l with
  | nil => intro b; simp [collapseWsAux]
  | cons a as ih =>
    intro b
    simp only [collapseWsAux]
    by_cases ha : isSpace a = true
    · rw [if_pos ha]
      cases b with
      | true =>
        simp only [if_pos rfl]
        exact ih true
      | false =>
        simp only [Bool.false_eq_true, if_false]
        rw [List.chain'_cons']
        refine ⟨?_, ih true⟩
        intro y hy
        have hyh : (collapseWsAux true as).head? = some y := Option.mem_def.mp hy
        have := collapseWsAux_true_head as y hyh
        intro hcontra
        rw [hcontra.2] at this
        exact absurd this (by simp [isSpace])
    · rw [if_neg ha]
      rw [List.chain'_cons']
      refine ⟨?_, ih false⟩
      intro y _
      intro hcontra
      rw [hcontra.1] at ha
      exact ha (by simp [isSpace])

theorem collapseWsAux_eq_self :
    ∀ l : List Char, (∀ c ∈ l, isSpace c = true → c = ' ') →
      List.Chain' (fun a b : Char => ¬(a = ' ' ∧ b = ' ')) l →
      collapseWsAux false l = l ∧ (headNotSpace l → collapseWsAux true l = l) := by
  intro l
  induction l with
  | nil => intro _ _; exact ⟨rfl, fun _ => rfl⟩
  | cons a as ih =>
    intro hsp hch
    have ihas :=
      ih (fun c hc h => hsp c (List.mem_cons_of_mem a hc) h) hch.tail
    constructor
    · simp only [collapseWsAux]
      by_cases ha : isSpace a = true
      · rw [if_pos ha]
        have ha' : a = ' ' := hsp a (List.mem_cons_self a as) ha
        have hhas : headNotSpace as := by
          intro c hc
          have hcm : c ∈ as.head? := by rw [hc]; rfl
          have hR := (List.chain'_cons'.mp hch).1 c hcm
          cases hcs : isSpace c
          · rfl
          · exfalso
            have hc' : c = ' ' :=
              hsp c (List.mem_cons_of_mem a (List.mem_of_mem_head? hcm)) hcs
            exact hR ⟨ha', hc'⟩
        simp only [Bool.false_eq_true, if_false]
        rw [ihas.2 hhas, ha']
      · rw [if_neg ha, ihas.1]
    · intro hh
      simp only [collapseWsAux]
      have ha : isSpace a = false := hh a rfl
      rw [if_neg (by rw [ha]; simp), ihas.1]

theorem collapseWs_eq_self {l : List Char}
    (hsp : ∀ c ∈ l, isSpace c = true → c = ' ')
    (hch : List.Chain' (fun a b : Char => ¬(a = ' ' ∧ b = ' ')) l) :
    collapseWs l = l :=
  (collapseWsAux_eq_self l hsp hch).1

theorem trimChars_eq_self {l : List Char} (hh : headNotSpace l) (hl : lastNotSpace l) :
    trimChars l = l := by
  unfold trimChars
  have h1 : l.dropWhile isSpace = l :=
    dropWhile_eq_self isSpace (fun c hc => hh c hc)
  rw [h1]
  have h2 : l.reverse.dropWhile isSpace = l.reverse := by
    apply dropWhile_eq_self
    intro c hc
    rw [List.head?_reverse] at hc
    exact hl c hc
  rw [h2, List.reverse_reverse]

/-- Shape of the output of `normalize_text`: every character is a word
character or a single space, no two adjacent spaces, no leading or
trailing space, and every character is a fixed point of lowercasing. -/
def Normalized (l : List Char) : Prop :=
  (∀ c ∈ l, (isWordChar c = true ∨ c = ' ') ∧ lowerChar c = c)
    ∧ List.Chain' (fun a b : Char => ¬(a = ' ' ∧ b = ' ')) l
    ∧ headNotSpace l ∧ lastNotSpace l

theorem normalized_nil : Normalized [] := by
  refine ⟨fun c hc => absurd hc (List.not_mem_nil c), List.chain'_nil, ?_, ?_⟩
  · intro c hc; simp at hc
  · intro c hc; simp at hc

theorem normalized_normalizeTextL (l : List Char) :
    Normalized (ExcelImporter.normalizeTextL l) := by
  unfold ExcelImporter.normalizeTextL
  by_cases hc : ExcelImporter.cleanTextL l = []
  · rw [hc]
    simp only [if_pos rfl]
    exact normalized_nil
  · rw [if_neg hc]
    refine ⟨?_, ?_, ?_, ?_⟩
    · intro c hcm
      have hmem := trimChars_subset hcm
      have hml := collapseWsAux_mem _ false c hmem
      have hsp := collapseWsAux_space _ false c hmem
      constructor
      · rcases hml with hmf | hsp'
        · have hp := (List.mem_filter.mp hmf).2
          have hp' : isWordChar c = true ∨ isSpace c = true := by simpa using hp
          rcases hp' with hw | hs
          · exact Or.inl hw
          · exact Or.inr (hsp hs)
        · exact Or.inr hsp'
      · rcases hml with hmf | hsp'
        · obtain ⟨x, _, hx⟩ := List.mem_map.mp (List.mem_filter.mp hmf).1
          rw [← hx]
          exact lowerChar_idem x
        · rw [hsp']
          decide
    · exact trimChars_chain (collapseWsAux_chain _ false)
    · exact (trimChars_ends _).1
    · exact (trimChars_ends _).2

theorem normalizeTextL_of_normalized {t : List Char} (hn : Normalized t) :
    ExcelImporter.normalizeTextL t = t := by
  obtain ⟨hmem, hchain, hhead, hlast⟩ := hn
  by_cases ht : t = []
  · subst ht; rfl
  · have hD : ('D' : Char) ∉ t := by
      intro hD
      have := (hmem 'D' hD).2
      exact absurd this (by decide)
    have hr : ('\r' : Char) ∉ t := by
      intro hr
      rcases (hmem _ hr).1 with hw | hsp
      · exact absurd hw (by decide)
      · exact absurd hsp (by decide)
    have hn' : ('\n' : Char) ∉ t := by
      intro hn'
      rcases (hmem _ hn').1 with hw | hsp
      · exact absurd hw (by decide)
      · exact absurd hsp (by decide)
    have htrim : trimChars t = t := trimChars_eq_self hhead hlast
    have hclean : ExcelImporter.cleanTextL t = t := by
      unfold ExcelImporter.cleanTextL
      rw [if_neg ht]
      have e1 : replaceAll "_x000D_".data "\n".data t = t :=
        replaceAll_no_occur _ (noOccur_of_not_mem (show ('D' : Char) ∈ "_x000D_".data by decide) hD)
      have e2 : replaceAll "\r\n".data "\n".data t = t :=
        replaceAll_no_occur _ (noOccur_of_not_mem (show ('\r' : Char) ∈ "\r\n".data by decide) hr)
      have e3 : replaceAll "\r".data "\n".data t = t :=
        replaceAll_no_occur _ (noOccur_of_not_mem (show ('\r' : Char) ∈ "\r".data by decide) hr)
      simp only [e1, e2, e3, splitOnChar_not_mem hn', List.map_cons, List.map_nil, htrim]
      rw [List.filter_cons, if_pos (by simpa using ht)]
      simp [List.intercalate]
    unfold ExcelImporter.normalizeTextL
    rw [hclean, if_neg ht]
    have hmapl : t.map lowerChar = t := by
      have : ∀ c ∈ t, lowerChar c = c := fun c hc => (hmem c hc).2
      calc t.map lowerChar = t.map id := List.map_congr_left this
        _ = t := List.map_id t
    have hfil : (t.filter fun c => isWordChar c || isSpace c) = t := by
      apply List.filter_eq_self.mpr
      intro c hc
      rcases (hmem c hc).1 with hw | hsp
      · rw [hw]; simp
      · rw [hsp]
        decide
    rw [hmapl, hfil]
    have hcol : collapseWs t = t := by
      apply collapseWs_eq_self _ hchain
      intro c hc hcs
      rcases (hmem c hc).1 with hw | hsp
      · exact absurd hcs (by rw [isWordChar_isSpace_false hw]; simp)
      · exact hsp
    rw [hcol]
    exact htrim

/-! ## Claim C10 -/

/-- C10: the deduplication key function `normalize_text` is idempotent:
normalizing an already-normalized question never changes its
duplicate-detection key. -/
theorem normalize_text_idem (s : String) :
    ExcelImporter.normalize_text (ExcelImporter.normalize_text s)
      = ExcelImporter.normalize_text s := by
  unfold ExcelImporter.normalize_text
  exact congrArg String.mk (normalizeTextL_of_normalized (normalized_normalizeTextL s.data))
